import Mathlib

/-!
Verification of the asset-path canonicalization and packaging engine of the
`muwanx` repository (`src/muwanx/utils.py`, `src/muwanx/asset_collector.py`).

The Python code is shallowly embedded: strings are Lean `String`s, the
relevant `posixpath` library functions (`normpath`, `join`, `basename`,
`isabs`) are translated from their CPython implementations, the filesystem
is an explicit map from path strings to optional byte contents, and Python
dictionaries (insertion ordered, update-in-place) are association lists.
The runtime platform is POSIX (the repository is developed and tested on
Linux), so `os.path` coincides with `posixpath`.
-/

namespace Muwanx

/-- Bytes of a file, abstracted as a list of naturals. -/
abbrev ByteSeq := List Nat

/-! ## Character-list plumbing for Python string/path functions -/

/-- Split a character list at every `/`, in the sense of the Python
method `str.split("/")`: `pSplit "".data = [[]]`, separators at the ends produce
empty components. -/
def pSplit : List Char → List (List Char)
  | [] => [[]]
  | c :: cs =>
    match pSplit cs with
    | [] => [[]]
    | h :: t => if c = '/' then [] :: h :: t else (c :: h) :: t

/-- The Python expression `"/".join(...)` on string components. -/
def joinComps : List String → String
  | [] => ""
  | [x] => x
  | x :: y :: t => x ++ "/" ++ joinComps (y :: t)

/-- The Python expression `s.split("/")` (always non-empty; empty components kept). -/
def splitSlash (s : String) : List String :=
  (pSplit s.data).map fun cs => String.mk cs

/-- Does the string start with `'/'`? (`posixpath.isabs`). -/
def startsWithSlash (s : String) : Bool :=
  match s.data with
  | c :: _ => c = '/'
  | [] => false

/-- The Windows-drive test of `_make_zip_safe_path`:
`len(p) >= 3 and p[1] == ":" and p[2] == "/"`. -/
def driveLike (s : String) : Bool :=
  match s.data with
  | _ :: c1 :: c2 :: _ => c1 = ':' && c2 = '/'
  | _ => false

/-- The Python expression `path.replace("\\", "/")`. -/
def backslashToSlash (s : String) : String :=
  String.mk (s.data.map fun c => if c = '\\' then '/' else c)

/-- `posixpath.basename`: everything after the final `/`. -/
def posixBasename (s : String) : String :=
  (splitSlash s).getLastD ""

/-- `posixpath.join(a, b)` (two arguments), from the CPython source:
an absolute second component replaces the first, else they are glued with
at most one separator. `os.path.join` on the POSIX runtime is the same
function. -/
def posixJoin (a b : String) : String :=
  if startsWithSlash b then b
  else if a = "" ∨ a.data.getLast? = some '/' then a ++ b
  else a ++ "/" ++ b

/-- The component loop of the CPython function `posixpath.normpath`: drop empty and
`"."` components, let `".."` cancel a preceding real component, keep
leading `".."`s of relative paths. -/
def normComps (initialSlashes : Nat) (comps : List String) : List String :=
  comps.foldl
    (fun acc comp =>
      if comp = "" ∨ comp = "." then acc
      else if comp ≠ ".." ∨ (initialSlashes = 0 ∧ acc = []) ∨ acc.getLast? = some ".." then
        acc ++ [comp]
      else if acc = [] then acc
      else acc.dropLast)
    []

/-- Number of leading slashes kept by `posixpath.normpath` (two slashes are
preserved by POSIX convention, one and three-or-more collapse to one). -/
def initSlashCount (s : String) : Nat :=
  if startsWithSlash s then
    (match s.data with
     | '/' :: '/' :: '/' :: _ => 1
     | '/' :: '/' :: _ => 2
     | _ => 1)
  else 0

/-- The CPython function `posixpath.normpath`. -/
def posixNormpath (p : String) : String :=
  if p = "" then "."
  else
    let slashes := initSlashCount p
    let comps := normComps slashes (splitSlash p)
    let path := String.mk (List.replicate slashes '/') ++ joinComps comps
    if path = "" then "." else path

/-- `muwanx.utils._strip_leading_dotdot`: normalize, then drop leading
`".."` components. -/
def stripLeadingDotdot (path : String) : String :=
  let normalized := posixNormpath path
  if normalized = "." then ""
  else joinComps ((splitSlash normalized).dropWhile fun s => s = "..")

/-- `muwanx.utils._make_zip_safe_path`, the path canonicalizer: backslashes
become slashes; absolute paths (POSIX or Windows-drive) are reduced to
their basename; relative paths are normalized with leading `".."`
stripped. -/
def makeZipSafePath (path : String) : String :=
  let posixPath := backslashToSlash path
  let isAbsolute := startsWithSlash posixPath || driveLike posixPath
  if isAbsolute then posixBasename posixPath
  else stripLeadingDotdot posixPath

/-- `posixpath.join(dir_hint, filename) if dir_hint else filename`, the
resolution step shared by both collectors and by the XML rewriter. -/
def joinHint (dirHint filename : String) : String :=
  if dirHint = "" then filename else posixJoin dirHint filename

/-! ## Python dictionaries as insertion-ordered association lists -/

/-- A Python `dict` with string keys: an association list in insertion
order. -/
abbrev AList (α : Type) := List (String × α)

/-- Python `d[k] = v`: update in place if the key is present, else append. -/
def dinsert (d : AList α) (k : String) (v : α) : AList α :=
  if d.any (fun p => p.1 = k) then
    d.map fun p => if p.1 = k then (k, v) else p
  else d ++ [(k, v)]

/-- Python `d.get(k)` / `d[k]`: first (and, for genuine dicts, only)
binding of `k`. -/
def dlookup (k : String) : AList α → Option α
  | [] => none
  | (k', v) :: t => if k' = k then some v else dlookup k t

/-- The keys of a dictionary, in order. -/
def dkeys (d : AList α) : List String := d.map Prod.fst

/-! ## The MjSpec interface and the filesystem

`mujoco.MjSpec` is an external library object; the embedding keeps exactly
the fields the muwanx code reads.  The string fields are `""` when unset
(`spec.meshdir or ""` is the identity on strings).  The filesystem is a
partial map from path strings to file bytes; `os.path.isfile` is
definedness and `Path(p).read_bytes()` is the value. -/

structure MjsMesh where
  file : String
deriving DecidableEq, Repr

structure MjsTexture where
  file : String
  cubefiles : List String
deriving DecidableEq, Repr

structure MjsHField where
  file : String
deriving DecidableEq, Repr

structure MjsSkin where
  file : String
deriving DecidableEq, Repr

structure MjSpecModel where
  modelfiledir : String
  meshdir : String
  texturedir : String
  modelname : String
  meshes : List MjsMesh
  textures : List MjsTexture
  hfields : List MjsHField
  skins : List MjsSkin
deriving DecidableEq, Repr

/-- A filesystem state: which paths are regular files, and their bytes. -/
abbrev FS := String → Option ByteSeq

/-- The sequence of `(dir_hint, filename)` pairs fed to `_read` by
`collect_spec_assets` (both copies), and equally the sequence of
asset-file reads performed inline by `to_zip_deflated`: meshes with the
mesh directory hint, then, per texture, the `file` entry followed by the cube-map
faces with the texture directory hint, then heightfields and skins with no
hint. -/
def specJobs (spec : MjSpecModel) : List (String × String) :=
  spec.meshes.map (fun m => (spec.meshdir, m.file))
    ++ (spec.textures.map fun t =>
          (spec.texturedir, t.file) :: t.cubefiles.map fun c => (spec.texturedir, c)).flatten
    ++ spec.hfields.map (fun h => ("", h.file))
    ++ spec.skins.map (fun s => ("", s.file))

/-- One `_read(dir_hint, filename)` step: skip empty filenames, resolve
`rel` against the hint and `full` against the base directory of the model, and
when a regular file is there store its bytes under `keyFn rel`.
`muwanx.utils` uses `keyFn = _make_zip_safe_path`,
`muwanx.asset_collector` stores the raw `rel`. -/
def readStep (keyFn : String → String) (mk : ByteSeq → α) (base : String)
    (fs : FS) (d : AList α) (job : String × String) : AList α :=
  if job.2 = "" then d
  else
    let rel := joinHint job.1 job.2
    let full := posixJoin base rel
    match fs full with
    | some bs => dinsert d (keyFn rel) (mk bs)
    | none => d

/-- The common shape of the three asset-collection loops in the source. -/
def collectAssetsWith (keyFn : String → String) (mk : ByteSeq → α)
    (spec : MjSpecModel) (fs : FS) : AList α :=
  (specJobs spec).foldl (readStep keyFn mk spec.modelfiledir fs) []

/-- `muwanx.utils.collect_spec_assets`: keys are
`_make_zip_safe_path(rel)`. -/
def collectSpecAssetsUtils (spec : MjSpecModel) (fs : FS) : AList ByteSeq :=
  collectAssetsWith makeZipSafePath id spec fs

/-- `muwanx.asset_collector.collect_spec_assets`: keys are the raw
`os.path.join(dir_hint, filename)`. -/
def collectSpecAssetsAC (spec : MjSpecModel) (fs : FS) : AList ByteSeq :=
  collectAssetsWith (fun rel => rel) id spec fs

/-- A value stored in `files_to_zip`: raw asset bytes or the rewritten XML
text. -/
inductive ZVal where
  | bytes (bs : ByteSeq)
  | text (s : String)
deriving DecidableEq, Repr

/-- `muwanx.utils.to_zip_deflated`, down to the construction of
`files_to_zip` and the spec state after the call.  The external library
calls are parameters: `toXml` is `MjSpec.to_xml` (it returns the XML text
and may normalize the internal state of the spec — the only step of the function
that touches the spec object), `rewrite` is `_rewrite_xml_paths` at the
string level (its tree-level content is embedded separately below).  The
asset loops are those of `collectAssetsWith makeZipSafePath`; the
description entry `spec.modelname + ".xml"` is added last, reading
`modelname` after the `to_xml` call. -/
def toZipDeflated (toXml : MjSpecModel → String × MjSpecModel)
    (rewrite : String → String → String → String)
    (spec : MjSpecModel) (fs : FS) : AList ZVal × MjSpecModel :=
  let meshDir := spec.meshdir
  let textureDir := spec.texturedir
  let filesToZip := collectAssetsWith makeZipSafePath ZVal.bytes spec fs
  let xmlSpec := toXml spec
  let xmlStr := rewrite xmlSpec.1 meshDir textureDir
  (dinsert filesToZip (xmlSpec.2.modelname ++ ".xml") (ZVal.text xmlStr), xmlSpec.2)

/-! ## The XML tree and `_rewrite_xml_paths`

`xml.etree.ElementTree` parsing/serialization is external; the rewriting
itself acts on the element tree.  An element is a tag, an attribute
dictionary (unique keys, insertion ordered — so `attrib.pop` is filtering
the key out and `set` is `dinsert`), and a list of children.
`root.iter(tag)` visits every descendant (root included) with that tag;
each of the five rewriting loops edits only the attributes of the
visited node itself, so a loop is a tag-guarded map over the tree. -/

inductive XElem where
  | mk (tag : String) (attrib : AList String) (children : List XElem)

def XElem.tag : XElem → String
  | ⟨t, _, _⟩ => t

def XElem.attrib : XElem → AList String
  | ⟨_, a, _⟩ => a

def XElem.children : XElem → List XElem
  | ⟨_, _, c⟩ => c

mutual

/-- Boolean equality of elements (attribute order significant, as in an
ordered dict). -/
def beqX : XElem → XElem → Bool
  | ⟨t, a, c⟩, ⟨t', a', c'⟩ => t = t' && decide (a = a') && beqXL c c'

def beqXL : List XElem → List XElem → Bool
  | [], [] => true
  | x :: xs, y :: ys => beqX x y && beqXL xs ys
  | _, _ => false

end

mutual

theorem beqX_eq : ∀ x y, beqX x y = true ↔ x = y
  | ⟨t, a, c⟩, ⟨t', a', c'⟩ => by
    simp only [beqX, Bool.and_eq_true, decide_eq_true_eq, XElem.mk.injEq]
    constructor
    · rintro ⟨⟨h1, h2⟩, h3⟩; exact ⟨h1, h2, (beqXL_eq c c').1 h3⟩
    · rintro ⟨h1, h2, h3⟩; exact ⟨⟨h1, h2⟩, (beqXL_eq c c').2 h3⟩

theorem beqXL_eq : ∀ x y, beqXL x y = true ↔ x = y
  | [], [] => by simp [beqXL]
  | [], _ :: _ => by simp [beqXL]
  | _ :: _, [] => by simp [beqXL]
  | x :: xs, y :: ys => by
    simp only [beqXL, Bool.and_eq_true, List.cons.injEq]
    constructor
    · rintro ⟨h1, h2⟩; exact ⟨(beqX_eq x y).1 h1, (beqXL_eq xs ys).1 h2⟩
    · rintro ⟨h1, h2⟩; exact ⟨(beqX_eq x y).2 h1, (beqXL_eq xs ys).2 h2⟩

end

instance : DecidableEq XElem := fun x y =>
  decidable_of_iff (beqX x y = true) (beqX_eq x y)

mutual

/-- Apply a node-local attribute edit everywhere in the tree. -/
def treeMap (g : String → AList String → AList String) : XElem → XElem
  | ⟨t, a, c⟩ => ⟨t, g t a, treeMapL g c⟩

def treeMapL (g : String → AList String → AList String) : List XElem → List XElem
  | [] => []
  | x :: xs => treeMap g x :: treeMapL g xs

end

mutual

/-- Every element of the tree, root included (the order `root.iter`
produces is irrelevant to node-local edits). -/
def descendants : XElem → List XElem
  | ⟨t, a, c⟩ => ⟨t, a, c⟩ :: descendantsL c

def descendantsL : List XElem → List XElem
  | [] => []
  | x :: xs => descendants x ++ descendantsL xs

end

/-- Python `attrib.pop(k, None)` on a unique-key attribute dict. -/
def popA (k : String) (a : AList α) : AList α :=
  a.filter fun p => if p.1 = k then false else true

/-- `elem.get(attr)` / `if f:` / `elem.set(attr, canon(join(hint, f)))` —
the shared body of the mesh and texture rewriting loops. -/
def rewriteFileAttr (dirHint attr : String) (a : AList String) : AList String :=
  match dlookup attr a with
  | some f => if f = "" then a else dinsert a attr (makeZipSafePath (joinHint dirHint f))
  | none => a

/-- The hfield/skin variant: no directory hint is joined. -/
def rewriteFileNoHint (attr : String) (a : AList String) : AList String :=
  match dlookup attr a with
  | some f => if f = "" then a else dinsert a attr (makeZipSafePath f)
  | none => a

/-- Loop 1: `compiler.attrib.pop("meshdir"); compiler.attrib.pop("texturedir")`. -/
def gCompiler (t : String) (a : AList String) : AList String :=
  if t = "compiler" then popA "texturedir" (popA "meshdir" a) else a

/-- Loop 2: rewrite `<mesh file="...">` against the mesh directory hint. -/
def gMesh (meshDir : String) (t : String) (a : AList String) : AList String :=
  if t = "mesh" then rewriteFileAttr meshDir "file" a else a

/-- `_TEX_FILE_ATTRS` of `_rewrite_xml_paths`. -/
def texFileAttrs : List String :=
  ["file", "fileup", "fileback", "filedown", "filefront", "fileleft", "fileright"]

/-- Loop 3: rewrite the texture file and cube-face attributes against the
texture directory hint. -/
def gTexture (texDir : String) (t : String) (a : AList String) : AList String :=
  if t = "texture" then texFileAttrs.foldl (fun acc attr => rewriteFileAttr texDir attr acc) a
  else a

/-- Loops 4 and 5: rewrite `<hfield file>` and `<skin file>` with no hint. -/
def gFileTag (tagName : String) (t : String) (a : AList String) : AList String :=
  if t = tagName then rewriteFileNoHint "file" a else a

/-- `_rewrite_xml_paths` at the tree level: the five `root.iter` loops in
source order (compiler, mesh, texture, hfield, skin). -/
def rewriteXmlTree (meshDir texDir : String) (root : XElem) : XElem :=
  treeMap (gFileTag "skin") (treeMap (gFileTag "hfield")
    (treeMap (gTexture texDir) (treeMap (gMesh meshDir) (treeMap gCompiler root))))

/-- The five per-node edits fused into one node-local function. -/
def gAll (meshDir texDir : String) (t : String) (a : AList String) : AList String :=
  gFileTag "skin" t (gFileTag "hfield" t
    (gTexture texDir t (gMesh meshDir t (gCompiler t a))))

/-! ## ZIP serialization (`zipfile.ZipFile(..., ZIP_DEFLATED)`)

`ZipFile.writestr` with a string name stamps the entry with the current
local time (`ZipInfo(filename, date_time=time.localtime(time.time())[:6])`)
and writes a fixed 30-byte local file header followed by the DEFLATE
stream.  The header layout up to the time fields is fully concrete; the
compressor, CRC-32, text encoding and the trailing central directory are
kept abstract as function parameters. -/

/-- A wall-clock reading, as the `(year, month, day, hour, minute, second)`
tuple `time.localtime` produces. -/
structure Clock where
  year : Nat
  month : Nat
  day : Nat
  hour : Nat
  minute : Nat
  sec : Nat
deriving DecidableEq, Repr

/-- MS-DOS time word: `hour << 11 | minute << 5 | second // 2`. -/
def dosTime (c : Clock) : Nat := c.hour * 2048 + c.minute * 32 + c.sec / 2

/-- MS-DOS date word: `(year - 1980) << 9 | month << 5 | day`. -/
def dosDate (c : Clock) : Nat := (c.year - 1980) * 512 + c.month * 32 + c.day

/-- Two little-endian bytes. -/
def le16 (n : Nat) : ByteSeq := [n % 256, n / 256 % 256]

/-- Four little-endian bytes. -/
def le32 (n : Nat) : ByteSeq :=
  [n % 256, n / 256 % 256, n / 65536 % 256, n / 16777216 % 256]

/-- The bytes a `ZVal` contributes before compression; the encoding of the
XML text entry is a parameter. -/
def zvalBytes (enc : String → ByteSeq) : ZVal → ByteSeq
  | .bytes bs => bs
  | .text s => enc s

/-- The ZIP local file header for one deflated entry: signature
`PK\x03\x04`, version 20, no flags, method 8 (DEFLATE), DOS time and date,
CRC-32, compressed and uncompressed sizes, name length, no extra field,
then the name bytes. -/
def localHeader (c : Clock) (name : String) (crc csize usize : Nat) : ByteSeq :=
  [80, 75, 3, 4] ++ le16 20 ++ le16 0 ++ le16 8 ++ le16 (dosTime c) ++ le16 (dosDate c)
    ++ le32 crc ++ le32 csize ++ le32 usize ++ le16 name.length ++ le16 0
    ++ name.data.map Char.toNat

/-- The byte stream of the produced archive: one local header plus deflate
stream per entry of `files_to_zip`, in insertion order, then the central
directory (abstracted, as is the compressor). Every entry carries the DOS
timestamp of the clock reading of the invocation. -/
def zipStream (compress : ByteSeq → ByteSeq) (crcF : ByteSeq → Nat)
    (enc : String → ByteSeq) (central : AList ZVal → Clock → ByteSeq)
    (entries : AList ZVal) (c : Clock) : ByteSeq :=
  (entries.map fun p =>
      let raw := zvalBytes enc p.2
      let comp := compress raw
      localHeader c p.1 (crcF raw) comp.length raw.length ++ comp).flatten
    ++ central entries c

/-! ## Entry-name safety

The archive invariant of the spec for an entry name: it does not start with `/`
and has no `..` path segment. -/

/-- The archive entry-name invariant of the spec: no leading `/`, no `..`
path segment. -/
def safeEntryName (s : String) : Prop :=
  startsWithSlash s = false ∧ ".." ∉ splitSlash s

instance (s : String) : Decidable (safeEntryName s) := by
  unfold safeEntryName; infer_instance

/-! ## Concrete instances for counterexamples and witnesses -/

/-- A stub for the external `MjSpec.to_xml` call: returns a fixed text and
leaves the spec unchanged (an already-normalized spec). -/
def xmlStub : MjSpecModel → String × MjSpecModel := fun s => ("<mujoco/>", s)

/-- A stub for the string-level `_rewrite_xml_paths` parameter. -/
def rewriteStub : String → String → String → String := fun x _ _ => x

/-- The empty filesystem. -/
def fsNone : FS := fun _ => none

/-- A spec whose model name contains a parent-directory segment. -/
def specDotdotName : MjSpecModel := ⟨"", "", "", "../evil", [], [], [], []⟩

/-- A spec with one mesh declaration `a.stl` and no other assets. -/
def specLoneMesh : MjSpecModel := ⟨"", "", "", "m", [⟨"a.stl"⟩], [], [], []⟩

/-- A filesystem holding only the file `a.stl`. -/
def fsAOnly : FS := fun p => if p = "a.stl" then some [1] else none

/-- A spec with mesh directory hint `..` and one mesh `foo.stl`. -/
def specHintMesh : MjSpecModel := ⟨"", "..", "", "m", [⟨"foo.stl"⟩], [], [], []⟩

/-- A filesystem holding only the file `../foo.stl`. -/
def fsDotdotFoo : FS := fun p => if p = "../foo.stl" then some [7] else none

/-- Two mesh declarations whose distinct raw paths canonicalize to the same
key `a.stl`; only the second resolves on `fsAOnly`. -/
def specCollide : MjSpecModel := ⟨"", "", "", "m", [⟨"x/../a.stl"⟩, ⟨"a.stl"⟩], [], [], []⟩

/-- The identity compressor stub (the counterexamples do not depend on the
DEFLATE details). -/
def compressId : ByteSeq → ByteSeq := fun b => b

/-- A CRC stub. -/
def crcZero : ByteSeq → Nat := fun _ => 0

/-- A text-encoding stub. -/
def encChars : String → ByteSeq := fun s => s.data.map Char.toNat

/-- An empty central-directory stub. -/
def centralNil : AList ZVal → Clock → ByteSeq := fun _ _ => []

/-- New Year 1980, midnight. -/
def clockA : Clock := ⟨1980, 1, 1, 0, 0, 0⟩

/-- Two seconds later (one DOS-time tick). -/
def clockB : Clock := ⟨1980, 1, 1, 0, 0, 2⟩

/-! # Lemmas

## Splitting and joining on `/` -/

theorem pSplit_ne_nil (l : List Char) : pSplit l ≠ [] := by
  cases l with
  | nil => simp [pSplit]
  | cons c cs =>
    simp only [pSplit]
    cases hp : pSplit cs with
    | nil => simp
    | cons hd tl => by_cases hc : c = '/' <;> simp [hc]

theorem noslash_of_mem_pSplit {l : List Char} {s : List Char} (h : s ∈ pSplit l) :
    '/' ∉ s := by
  induction l generalizing s with
  | nil => simp [pSplit] at h; simp [h]
  | cons c cs ih =>
    simp only [pSplit] at h
    cases hp : pSplit cs with
    | nil => exact absurd hp (pSplit_ne_nil cs)
    | cons hd tl =>
      rw [hp] at h
      by_cases hc : c = '/'
      · simp [hc] at h
        rcases h with h | h | h
        · simp [h]
        · exact ih (hp ▸ (by simp [h, hp]))
        · exact ih (hp ▸ (by simp [h, hp]))
      · simp [hc] at h
        rcases h with h | h
        · subst h
          intro hmem
          rcases List.mem_cons.1 hmem with h' | h'
          · exact hc h'.symm
          · exact ih (by simp [hp]) h'
        · exact ih (by simp [hp, h])

theorem chars_of_mem_pSplit {l : List Char} {s : List Char} (h : s ∈ pSplit l) :
    ∀ c ∈ s, c ∈ l := by
  induction l generalizing s with
  | nil => simp [pSplit] at h; simp [h]
  | cons c cs ih =>
    simp only [pSplit] at h
    cases hp : pSplit cs with
    | nil => exact absurd hp (pSplit_ne_nil cs)
    | cons hd tl =>
      rw [hp] at h
      by_cases hc : c = '/'
      · simp [hc] at h
        rcases h with h | h | h
        · simp [h]
        · intro x hx; exact List.mem_cons_of_mem _ (ih (by simp [hp, h]) x hx)
        · intro x hx; exact List.mem_cons_of_mem _ (ih (by simp [hp, h]) x hx)
      · simp [hc] at h
        rcases h with h | h
        · subst h
          intro x hx
          rcases List.mem_cons.1 hx with h' | h'
          · simp [h']
          · exact List.mem_cons_of_mem _ (ih (by simp [hp]) x h')
        · intro x hx; exact List.mem_cons_of_mem _ (ih (by simp [hp, h]) x hx)

theorem pSplit_noslash {l : List Char} (h : '/' ∉ l) : pSplit l = [l] := by
  induction l with
  | nil => rfl
  | cons c cs ih =>
    have hc : c ≠ '/' := fun hc => h (hc ▸ List.mem_cons_self c cs)
    have hcs : '/' ∉ cs := fun hm => h (List.mem_cons_of_mem c hm)
    simp [pSplit, ih hcs, hc]

theorem pSplit_append_slash {x : List Char} (r : List Char) (h : '/' ∉ x) :
    pSplit (x ++ '/' :: r) = x :: pSplit r := by
  induction x with
  | nil =>
    simp only [List.nil_append, pSplit]
    cases hp : pSplit r with
    | nil => exact absurd hp (pSplit_ne_nil r)
    | cons hd tl => simp
  | cons c cs ih =>
    have hc : c ≠ '/' := fun hc => h (hc ▸ List.mem_cons_self c cs)
    have hcs : '/' ∉ cs := fun hm => h (List.mem_cons_of_mem c hm)
    rw [List.cons_append]
    show pSplit (c :: (cs ++ '/' :: r)) = _
    simp only [pSplit]
    rw [ih hcs]
    simp [hc]

/-! String-level versions. -/

theorem splitSlash_ne_nil (s : String) : splitSlash s ≠ [] := by
  simp [splitSlash, pSplit_ne_nil]

theorem noslash_of_mem_splitSlash {p s : String} (h : s ∈ splitSlash p) :
    '/' ∉ s.data := by
  simp only [splitSlash, List.mem_map] at h
  obtain ⟨cs, hcs, rfl⟩ := h
  exact noslash_of_mem_pSplit hcs

theorem chars_of_mem_splitSlash {p s : String} (h : s ∈ splitSlash p) :
    ∀ c ∈ s.data, c ∈ p.data := by
  simp only [splitSlash, List.mem_map] at h
  obtain ⟨cs, hcs, rfl⟩ := h
  exact chars_of_mem_pSplit hcs

theorem joinComps_cons₂ (x y : String) (t : List String) :
    joinComps (x :: y :: t) = x ++ "/" ++ joinComps (y :: t) := rfl

theorem splitSlash_joinComps : ∀ (l : List String), l ≠ [] →
    (∀ s ∈ l, '/' ∉ s.data) → splitSlash (joinComps l) = l
  | [], h, _ => absurd rfl h
  | [x], _, hs => by
    simp only [joinComps, splitSlash]
    rw [pSplit_noslash (hs x (by simp))]
    simp
  | x :: y :: t, _, hs => by
    have hx : '/' ∉ x.data := hs x (by simp)
    have ht : splitSlash (joinComps (y :: t)) = y :: t :=
      splitSlash_joinComps (y :: t) (by simp) (fun s hsm => hs s (by simp [hsm]))
    simp only [joinComps_cons₂, splitSlash, String.data_append]
    have : x.data ++ "/".data ++ (joinComps (y :: t)).data
        = x.data ++ '/' :: (joinComps (y :: t)).data := by simp
    rw [this, pSplit_append_slash _ hx]
    simp only [List.map_cons]
    simp only [splitSlash] at ht
    rw [ht]


/-! ## Structure of the `normpath` component stack (relative paths) -/

theorem foldl_normStep_structure : ∀ (l : List String) (comps0 acc : List String),
    (∀ s ∈ l, s ∈ comps0) →
    (∃ k rest, acc = List.replicate k ".." ++ rest ∧
        ∀ s ∈ rest, s ∈ comps0 ∧ s ≠ "" ∧ s ≠ "." ∧ s ≠ "..") →
    ∃ k rest,
      List.foldl
        (fun acc comp =>
          if comp = "" ∨ comp = "." then acc
          else if comp ≠ ".." ∨ ((0 : Nat) = 0 ∧ acc = []) ∨ acc.getLast? = some ".." then
            acc ++ [comp]
          else if acc = [] then acc
          else acc.dropLast) acc l = List.replicate k ".." ++ rest ∧
      ∀ s ∈ rest, s ∈ comps0 ∧ s ≠ "" ∧ s ≠ "." ∧ s ≠ ".."
  | [], comps0, acc, _, hinv => by simpa using hinv
  | comp :: t, comps0, acc, hmem, hinv => by
    obtain ⟨k, rest, hacc, hrest⟩ := hinv
    rw [List.foldl_cons]
    by_cases h1 : comp = "" ∨ comp = "."
    · rw [if_pos h1]
      exact foldl_normStep_structure t comps0 acc (fun s hs => hmem s (by simp [hs]))
        ⟨k, rest, hacc, hrest⟩
    · rw [if_neg h1]
      by_cases h2 : comp ≠ ".." ∨ ((0 : Nat) = 0 ∧ acc = []) ∨ acc.getLast? = some ".."
      · rw [if_pos h2]
        refine foldl_normStep_structure t comps0 (acc ++ [comp])
          (fun s hs => hmem s (by simp [hs])) ?_
        by_cases hdd : comp = ".."
        · subst hdd
          have hcase : acc = [] ∨ acc.getLast? = some ".." := by
            rcases h2 with h2 | h2 | h2
            · exact absurd rfl h2
            · exact Or.inl h2.2
            · exact Or.inr h2
          rcases hcase with hc | hc
          · exact ⟨1, [], by simp [hc], by simp⟩
          · have hrnil : rest = [] := by
              by_contra hrne
              rw [hacc, List.getLast?_append_of_ne_nil _ hrne] at hc
              exact (hrest _ (List.mem_of_mem_getLast? hc)).2.2.2 rfl
            refine ⟨k + 1, [], ?_, by simp⟩
            rw [hacc, hrnil, List.append_nil, List.append_nil, ← List.replicate_succ']
        · refine ⟨k, rest ++ [comp], by rw [hacc, List.append_assoc], ?_⟩
          intro s hs
          rcases List.mem_append.1 hs with hs | hs
          · exact hrest s hs
          · have : s = comp := by simpa using hs
            subst this
            push_neg at h1
            exact ⟨hmem s (by simp), h1.1, h1.2, hdd⟩
      · rw [if_neg h2]
        push_neg at h2
        obtain ⟨hdd, hne, hlast⟩ := h2
        have haccne : acc ≠ [] := fun h => hne rfl h
        rw [if_neg haccne]
        have hrne : rest ≠ [] := by
          intro hr
          rw [hr, List.append_nil] at hacc
          rcases Nat.eq_zero_or_pos k with hk | hk
          · exact haccne (by rw [hacc, hk]; rfl)
          · obtain ⟨k', rfl⟩ : ∃ k', k = k' + 1 := ⟨k - 1, by omega⟩
            apply hlast
            rw [hacc, List.replicate_succ', List.getLast?_append_of_ne_nil _ (by simp)]
            rfl
        refine foldl_normStep_structure t comps0 acc.dropLast
          (fun s hs => hmem s (by simp [hs]))
          ⟨k, rest.dropLast, ?_, fun s hs => hrest s (List.dropLast_subset rest hs)⟩
        rw [hacc, List.dropLast_append_of_ne_nil _ hrne]

theorem normComps_zero_structure (comps : List String) :
    ∃ k rest, normComps 0 comps = List.replicate k ".." ++ rest ∧
      ∀ s ∈ rest, s ∈ comps ∧ s ≠ "" ∧ s ≠ "." ∧ s ≠ ".." := by
  unfold normComps
  refine foldl_normStep_structure comps comps [] (fun s hs => hs) ?_
  exact ⟨0, [], by simp, by simp⟩

/-! ## Facts about `joinComps` on well-formed component lists -/

theorem joinComps_data_cons (x : String) (t : List String) (ht : t ≠ []) :
    (joinComps (x :: t)).data = x.data ++ '/' :: (joinComps t).data := by
  cases t with
  | nil => exact absurd rfl ht
  | cons y t' => simp [joinComps_cons₂, String.data_append]

theorem joinComps_ne_empty {l : List String} (hne : l ≠ []) (h : ∀ s ∈ l, s ≠ "") :
    joinComps l ≠ "" := by
  cases l with
  | nil => exact absurd rfl hne
  | cons x t =>
    intro hcontra
    have hdata : (joinComps (x :: t)).data = [] := by rw [hcontra]
    cases t with
    | nil =>
      have hx := h x (by simp)
      exact hx (String.ext (by simpa [joinComps] using hdata))
    | cons y t' => simp [joinComps_data_cons x (y :: t') (by simp)] at hdata

theorem joinComps_ne_dot {l : List String} (h : ∀ s ∈ l, s ≠ ".") :
    joinComps l ≠ "." := by
  cases l with
  | nil => decide
  | cons x t =>
    cases t with
    | nil => simpa [joinComps] using h x (by simp)
    | cons y t' =>
      intro hcontra
      have hdata := joinComps_data_cons x (y :: t') (by simp)
      rw [hcontra] at hdata
      exact absurd (show '/' ∈ ("." : String).data by rw [hdata]; simp) (by decide)

theorem startsWithSlash_of_data {s : String} {c : Char} {r : List Char}
    (h : s.data = c :: r) : startsWithSlash s = decide (c = '/') := by
  unfold startsWithSlash
  rw [h]

theorem startsWithSlash_of_data_nil {s : String} (h : s.data = []) :
    startsWithSlash s = false := by
  unfold startsWithSlash
  rw [h]

theorem startsWithSlash_false_of_noslash {s : String} (h : '/' ∉ s.data) :
    startsWithSlash s = false := by
  cases hd : s.data with
  | nil => exact startsWithSlash_of_data_nil hd
  | cons c r =>
    rw [startsWithSlash_of_data hd]
    simp only [decide_eq_false_iff_not]
    intro hc
    exact h (by rw [hd, hc]; simp)

theorem driveLike_false_of_noslash {s : String} (h : '/' ∉ s.data) :
    driveLike s = false := by
  unfold driveLike
  cases hd : s.data with
  | nil => rfl
  | cons c0 r0 =>
    cases r0 with
    | nil => rfl
    | cons c1 r1 =>
      cases r1 with
      | nil => rfl
      | cons c2 r2 =>
        simp only [Bool.and_eq_false_imp, decide_eq_true_eq, decide_eq_false_iff_not]
        intro _ hc2
        exact h (by rw [hd, hc2]; simp)

theorem startsWithSlash_joinComps {l : List String}
    (h : ∀ s ∈ l, s ≠ "" ∧ '/' ∉ s.data) : startsWithSlash (joinComps l) = false := by
  cases l with
  | nil => decide
  | cons x t =>
    obtain ⟨hxe, hxs⟩ := h x (by simp)
    obtain ⟨c, cs, hcs⟩ : ∃ c cs, x.data = c :: cs := by
      cases hx : x.data with
      | nil => exact absurd (String.ext hx) hxe
      | cons c cs => exact ⟨c, cs, rfl⟩
    have hc : c ≠ '/' := fun hcc => hxs (by rw [hcs, hcc]; simp)
    have hdata : ∃ r, (joinComps (x :: t)).data = c :: r := by
      cases t with
      | nil => exact ⟨cs, by simpa [joinComps] using hcs⟩
      | cons y t' =>
        rw [joinComps_data_cons x (y :: t') (by simp), hcs]
        exact ⟨_, rfl⟩
    obtain ⟨r, hr⟩ := hdata
    rw [startsWithSlash_of_data hr]
    simpa using hc

theorem chars_of_joinComps : ∀ (l : List String) (c : Char), c ∈ (joinComps l).data →
    c = '/' ∨ ∃ s ∈ l, c ∈ s.data
  | [], c, h => by simp [joinComps] at h
  | [x], c, h => by
    right
    exact ⟨x, by simp, by simpa [joinComps] using h⟩
  | x :: y :: t, c, h => by
    rw [joinComps_data_cons x (y :: t) (by simp)] at h
    rcases List.mem_append.1 h with h | h
    · exact Or.inr ⟨x, by simp, h⟩
    · rcases List.mem_cons.1 h with h | h
      · exact Or.inl h
      · rcases chars_of_joinComps (y :: t) c h with h | ⟨s, hs, hc⟩
        · exact Or.inl h
        · exact Or.inr ⟨s, by simp [hs], hc⟩

theorem dropWhile_dotdot_replicate : ∀ (k : Nat) (rest : List String),
    (∀ s ∈ rest, s ≠ "..") →
    (List.replicate k ".." ++ rest).dropWhile (fun s => s = "..") = rest
  | 0, rest, h => by
    rw [List.replicate_zero, List.nil_append]
    cases rest with
    | nil => rfl
    | cons r t =>
      have hdec : (decide (r = "..")) = false := by
        simpa using h r (by simp)
      rw [List.dropWhile_cons]
      simp [hdec]
  | k + 1, rest, h => by
    rw [List.replicate_succ, List.cons_append, List.dropWhile_cons]
    simpa using dropWhile_dotdot_replicate k rest h


/-! ## Characterization of `_strip_leading_dotdot ∘ normpath` on relative paths -/

theorem mk_replicate_zero_append (x : String) :
    String.mk (List.replicate 0 '/') ++ x = x := by
  apply String.ext
  rw [String.data_append]
  show List.replicate 0 '/' ++ x.data = x.data
  rw [List.replicate_zero, List.nil_append]

theorem posixNormpath_eq_of_rel (p : String) (hp : p ≠ "")
    (h : startsWithSlash p = false) :
    posixNormpath p =
      if joinComps (normComps 0 (splitSlash p)) = "" then "."
      else joinComps (normComps 0 (splitSlash p)) := by
  unfold posixNormpath
  rw [if_neg hp]
  have h0 : initSlashCount p = 0 := by simp [initSlashCount, h]
  simp only [h0, mk_replicate_zero_append]

theorem stripLeadingDotdot_spec (p : String) (h : startsWithSlash p = false) :
    ∃ rest : List String, stripLeadingDotdot p = joinComps rest ∧
      ∀ s ∈ rest, s ∈ splitSlash p ∧ s ≠ "" ∧ s ≠ "." ∧ s ≠ ".." := by
  by_cases hp : p = ""
  · subst hp
    exact ⟨[], by decide, by simp⟩
  · obtain ⟨k, rest, hcomps, hrest⟩ := normComps_zero_structure (splitSlash p)
    have hCgood : ∀ s ∈ normComps 0 (splitSlash p), s ≠ "" ∧ s ≠ "." ∧ '/' ∉ s.data := by
      intro s hs
      rw [hcomps] at hs
      rcases List.mem_append.1 hs with hs | hs
      · have : s = ".." := List.eq_of_mem_replicate hs
        subst this
        refine ⟨by decide, by decide, by decide⟩
      · obtain ⟨hmem, hne, hnd, _⟩ := hrest s hs
        exact ⟨hne, hnd, noslash_of_mem_splitSlash hmem⟩
    unfold stripLeadingDotdot
    rw [posixNormpath_eq_of_rel p hp h]
    by_cases hC : normComps 0 (splitSlash p) = []
    · rw [hC]
      simp only [joinComps, if_pos rfl]
      exact ⟨[], by decide, by simp⟩
    · have hne : joinComps (normComps 0 (splitSlash p)) ≠ "" :=
        joinComps_ne_empty hC (fun s hs => (hCgood s hs).1)
      rw [if_neg hne]
      have hnd : joinComps (normComps 0 (splitSlash p)) ≠ "." :=
        joinComps_ne_dot (fun s hs => (hCgood s hs).2.1)
      rw [if_neg hnd]
      have hsplit : splitSlash (joinComps (normComps 0 (splitSlash p)))
          = normComps 0 (splitSlash p) :=
        splitSlash_joinComps _ hC (fun s hs => (hCgood s hs).2.2)
      rw [hsplit, hcomps,
        dropWhile_dotdot_replicate k rest (fun s hs => (hrest s hs).2.2.2)]
      exact ⟨rest, rfl, fun s hs => hrest s hs⟩

/-! ## `_strip_leading_dotdot ∘ normpath` fixes well-formed joined paths -/

theorem normComps_zero_good (l : List String)
    (h : ∀ s ∈ l, s ≠ "" ∧ s ≠ "." ∧ s ≠ "..") : normComps 0 l = l := by
  unfold normComps
  suffices haux : ∀ (l' acc : List String), (∀ s ∈ l', s ≠ "" ∧ s ≠ "." ∧ s ≠ "..") →
      List.foldl
        (fun acc comp =>
          if comp = "" ∨ comp = "." then acc
          else if comp ≠ ".." ∨ ((0 : Nat) = 0 ∧ acc = []) ∨ acc.getLast? = some ".." then
            acc ++ [comp]
          else if acc = [] then acc
          else acc.dropLast) acc l' = acc ++ l' by
    simpa using haux l [] h
  intro l' acc hgood
  induction l' generalizing acc with
  | nil => simp
  | cons x t ih =>
    obtain ⟨hx1, hx2, hx3⟩ := hgood x (by simp)
    rw [List.foldl_cons, if_neg (by simp [hx1, hx2]), if_pos (Or.inl hx3),
      ih (acc ++ [x]) (fun s hs => hgood s (by simp [hs]))]
    simp

theorem strip_fixes_joinComps (rest : List String)
    (h : ∀ s ∈ rest, s ≠ "" ∧ s ≠ "." ∧ s ≠ ".." ∧ '/' ∉ s.data) :
    stripLeadingDotdot (joinComps rest) = joinComps rest := by
  by_cases hrne : rest = []
  · subst hrne
    decide
  · have hempty : joinComps rest ≠ "" := joinComps_ne_empty hrne (fun s hs => (h s hs).1)
    have hslash : startsWithSlash (joinComps rest) = false :=
      startsWithSlash_joinComps (fun s hs => ⟨(h s hs).1, (h s hs).2.2.2⟩)
    unfold stripLeadingDotdot
    rw [posixNormpath_eq_of_rel _ hempty hslash]
    rw [splitSlash_joinComps rest hrne (fun s hs => (h s hs).2.2.2)]
    rw [normComps_zero_good rest (fun s hs => ⟨(h s hs).1, (h s hs).2.1, (h s hs).2.2.1⟩)]
    rw [if_neg hempty, if_neg (joinComps_ne_dot (fun s hs => (h s hs).2.1))]
    rw [splitSlash_joinComps rest hrne (fun s hs => (h s hs).2.2.2)]
    have : rest.dropWhile (fun s => s = "..") = rest := by
      have := dropWhile_dotdot_replicate 0 rest (fun s hs => (h s hs).2.2.1)
      simpa using this
    rw [this]


/-! ## Safety and idempotence of the canonicalizer -/

theorem makeZipSafePath_eq_ite (p : String) :
    makeZipSafePath p =
      if (startsWithSlash (backslashToSlash p) || driveLike (backslashToSlash p)) = true
      then posixBasename (backslashToSlash p)
      else stripLeadingDotdot (backslashToSlash p) := rfl

theorem noBackslash_backslashToSlash (s : String) : '\\' ∉ (backslashToSlash s).data := by
  unfold backslashToSlash
  intro h
  simp only [List.mem_map] at h
  obtain ⟨c, _, hc⟩ := h
  by_cases hcb : c = '\\' <;> simp [hcb] at hc

theorem backslashToSlash_id {s : String} (h : '\\' ∉ s.data) : backslashToSlash s = s := by
  unfold backslashToSlash
  have hmap : s.data.map (fun c => if c = '\\' then '/' else c) = s.data.map id := by
    apply List.map_congr_left
    intro c hc
    have hcb : c ≠ '\\' := fun hcb => h (hcb ▸ hc)
    rw [if_neg hcb]
    rfl
  rw [hmap, List.map_id]

theorem splitSlash_noslash {y : String} (h : '/' ∉ y.data) : splitSlash y = [y] := by
  unfold splitSlash
  rw [pSplit_noslash h]
  rfl

theorem posixBasename_mem (s : String) : posixBasename s ∈ splitSlash s := by
  unfold posixBasename
  cases hl : (splitSlash s).getLast? with
  | none =>
    exact absurd (List.getLast?_eq_none_iff.1 hl) (splitSlash_ne_nil s)
  | some a =>
    rw [List.getLastD_eq_getLast?, hl]
    have ha : a ∈ (splitSlash s).getLast? := by rw [hl]; rfl
    simpa using List.mem_of_mem_getLast? ha

theorem safeEntryName_single {y : String} (hs : '/' ∉ y.data) (hd : y ≠ "..") :
    safeEntryName y := by
  refine ⟨startsWithSlash_false_of_noslash hs, ?_⟩
  rw [splitSlash_noslash hs]
  simpa using fun hc => hd hc.symm

theorem safeEntryName_joinComps {rest : List String}
    (h : ∀ s ∈ rest, s ≠ "" ∧ s ≠ ".." ∧ '/' ∉ s.data) :
    safeEntryName (joinComps rest) := by
  by_cases hrne : rest = []
  · subst hrne
    decide
  · refine ⟨startsWithSlash_joinComps (fun s hs => ⟨(h s hs).1, (h s hs).2.2⟩), ?_⟩
    rw [splitSlash_joinComps rest hrne (fun s hs => (h s hs).2.2)]
    intro hc
    exact (h _ hc).2.1 rfl

/-- Entry-name safety of the canonicalizer.  The one exception is an
absolute input whose final segment is literally `..` (for example `/..` or
`a\..`), which the basename branch passes through. -/
theorem makeZipSafePath_safe (p : String)
    (h : posixBasename (backslashToSlash p) ≠ ".." ∨
      (startsWithSlash (backslashToSlash p) || driveLike (backslashToSlash p)) = false) :
    safeEntryName (makeZipSafePath p) := by
  rw [makeZipSafePath_eq_ite]
  by_cases habs : (startsWithSlash (backslashToSlash p) || driveLike (backslashToSlash p)) = true
  · rw [if_pos habs]
    have hb : posixBasename (backslashToSlash p) ≠ ".." := by
      rcases h with h | h
      · exact h
      · rw [h] at habs
        exact absurd habs (by simp)
    exact safeEntryName_single
      (noslash_of_mem_splitSlash (posixBasename_mem (backslashToSlash p))) hb
  · rw [if_neg habs]
    have hor : (startsWithSlash (backslashToSlash p) || driveLike (backslashToSlash p)) = false :=
      Bool.eq_false_iff.2 habs
    have hsw : startsWithSlash (backslashToSlash p) = false :=
      (Bool.or_eq_false_iff.1 hor).1
    obtain ⟨rest, heq, hrest⟩ := stripLeadingDotdot_spec (backslashToSlash p) hsw
    rw [heq]
    refine safeEntryName_joinComps (fun s hs => ?_)
    obtain ⟨hmem, he, _, hd⟩ := hrest s hs
    exact ⟨he, hd, noslash_of_mem_splitSlash hmem⟩

theorem makeZipSafePath_cases (p : String) :
    ('/' ∉ (makeZipSafePath p).data) ∨
      (∃ rest, makeZipSafePath p = joinComps rest ∧
        ∀ s ∈ rest, s ≠ "" ∧ s ≠ "." ∧ s ≠ ".." ∧ '/' ∉ s.data) := by
  rw [makeZipSafePath_eq_ite]
  by_cases habs : (startsWithSlash (backslashToSlash p) || driveLike (backslashToSlash p)) = true
  · rw [if_pos habs]
    exact Or.inl (noslash_of_mem_splitSlash (posixBasename_mem (backslashToSlash p)))
  · rw [if_neg habs]
    have hsw : startsWithSlash (backslashToSlash p) = false :=
      (Bool.or_eq_false_iff.1 (Bool.eq_false_iff.2 habs)).1
    obtain ⟨rest, heq, hrest⟩ := stripLeadingDotdot_spec (backslashToSlash p) hsw
    refine Or.inr ⟨rest, heq, fun s hs => ?_⟩
    obtain ⟨hmem, h1, h2, h3⟩ := hrest s hs
    exact ⟨h1, h2, h3, noslash_of_mem_splitSlash hmem⟩

theorem chars_of_makeZipSafePath (p : String) :
    ∀ c ∈ (makeZipSafePath p).data, c = '/' ∨ c ∈ (backslashToSlash p).data := by
  rw [makeZipSafePath_eq_ite]
  by_cases habs : (startsWithSlash (backslashToSlash p) || driveLike (backslashToSlash p)) = true
  · rw [if_pos habs]
    intro c hc
    exact Or.inr (chars_of_mem_splitSlash (posixBasename_mem (backslashToSlash p)) c hc)
  · rw [if_neg habs]
    have hsw : startsWithSlash (backslashToSlash p) = false :=
      (Bool.or_eq_false_iff.1 (Bool.eq_false_iff.2 habs)).1
    obtain ⟨rest, heq, hrest⟩ := stripLeadingDotdot_spec (backslashToSlash p) hsw
    rw [heq]
    intro c hc
    rcases chars_of_joinComps rest c hc with hc' | ⟨s, hs, hcs⟩
    · exact Or.inl hc'
    · exact Or.inr (chars_of_mem_splitSlash (hrest s hs).1 c hcs)

theorem noBackslash_makeZipSafePath (p : String) : '\\' ∉ (makeZipSafePath p).data := by
  intro h
  rcases chars_of_makeZipSafePath p _ h with h' | h'
  · exact absurd h' (by decide)
  · exact noBackslash_backslashToSlash p h'

theorem startsWithSlash_makeZipSafePath (p : String) :
    startsWithSlash (makeZipSafePath p) = false := by
  rcases makeZipSafePath_cases p with h | ⟨rest, heq, hrest⟩
  · exact startsWithSlash_false_of_noslash h
  · rw [heq]
    exact startsWithSlash_joinComps (fun s hs => ⟨(hrest s hs).1, (hrest s hs).2.2.2⟩)

theorem strip_fixes_single {y : String} (h : '/' ∉ y.data) (h1 : y ≠ "") (h2 : y ≠ ".")
    (h3 : y ≠ "..") : stripLeadingDotdot y = y := by
  have : joinComps [y] = y := rfl
  rw [← this]
  exact strip_fixes_joinComps [y] (by simpa using ⟨h1, h2, h3, h⟩)

/-- C8 (amended): the canonicalizer is idempotent away from the
exceptional values: a canonical form that is `.` or `..` (the basename of
an absolute input such as `/a/.` or `/..`) or that matches the
drive-letter pattern (such as `x:/y`, reachable from `./x:/y`) collapses
further on a second application; every other canonical form is fixed. -/
theorem makeZipSafePath_idem (x : String) (h1 : makeZipSafePath x ≠ ".")
    (h2 : makeZipSafePath x ≠ "..") (h3 : driveLike (makeZipSafePath x) = false) :
    makeZipSafePath (makeZipSafePath x) = makeZipSafePath x := by
  have hq : backslashToSlash (makeZipSafePath x) = makeZipSafePath x :=
    backslashToSlash_id (noBackslash_makeZipSafePath x)
  have hsw : startsWithSlash (makeZipSafePath x) = false :=
    startsWithSlash_makeZipSafePath x
  rw [makeZipSafePath_eq_ite (makeZipSafePath x), hq, hsw, h3]
  rw [if_neg (by simp)]
  rcases makeZipSafePath_cases x with h | ⟨rest, heq, hrest⟩
  · by_cases he : makeZipSafePath x = ""
    · rw [he]
      decide
    · exact strip_fixes_single h he h1 h2
  · rw [heq]
    exact strip_fixes_joinComps rest hrest



/-! ## Dictionary lemmas -/

theorem dkeys_nil : dkeys ([] : AList α) = [] := rfl

theorem dkeys_cons (p : String × α) (t : AList α) : dkeys (p :: t) = p.1 :: dkeys t := rfl

theorem dlookup_cons (k k' : String) (v : α) (t : AList α) :
    dlookup k ((k', v) :: t) = if k' = k then some v else dlookup k t := rfl

theorem any_key_iff (d : AList α) (k : String) :
    (d.any fun p => p.1 = k) = true ↔ k ∈ dkeys d := by
  rw [List.any_eq_true]
  constructor
  · rintro ⟨p, hp, he⟩
    have : p.1 = k := by simpa using he
    rw [dkeys, List.mem_map]
    exact ⟨p, hp, this⟩
  · intro h
    rw [dkeys, List.mem_map] at h
    obtain ⟨p, hp, he⟩ := h
    exact ⟨p, hp, by simpa using he⟩

theorem dkeys_dinsert (d : AList α) (k : String) (v : α) :
    dkeys (dinsert d k v) = if (d.any fun p => p.1 = k) = true then dkeys d
      else dkeys d ++ [k] := by
  unfold dinsert
  by_cases h : (d.any fun p => p.1 = k) = true
  · rw [if_pos h, if_pos h]
    unfold dkeys
    rw [List.map_map]
    apply List.map_congr_left
    intro p _
    by_cases hp : p.1 = k <;> simp [hp]
  · rw [if_neg h, if_neg h]
    unfold dkeys
    simp

theorem mem_dkeys_dinsert {d : AList α} {k' : String} (h : k' ∈ dkeys d) (k : String) (v : α) :
    k' ∈ dkeys (dinsert d k v) := by
  rw [dkeys_dinsert]
  by_cases ha : (d.any fun p => p.1 = k) = true <;> simp [ha, h]

theorem self_mem_dkeys_dinsert (d : AList α) (k : String) (v : α) :
    k ∈ dkeys (dinsert d k v) := by
  rw [dkeys_dinsert]
  by_cases ha : (d.any fun p => p.1 = k) = true
  · rw [if_pos ha]
    exact (any_key_iff d k).1 ha
  · rw [if_neg ha]
    simp

theorem mem_dkeys_dinsert_elim {d : AList α} {k k' : String} {v : α}
    (h : k' ∈ dkeys (dinsert d k v)) : k' = k ∨ k' ∈ dkeys d := by
  rw [dkeys_dinsert] at h
  by_cases ha : (d.any fun p => p.1 = k) = true
  · rw [if_pos ha] at h
    exact Or.inr h
  · rw [if_neg ha] at h
    rcases List.mem_append.1 h with h | h
    · exact Or.inr h
    · exact Or.inl (by simpa using h)

theorem dlookup_dinsert_self (d : AList α) (k : String) (v : α) :
    dlookup k (dinsert d k v) = some v := by
  unfold dinsert
  by_cases h : (d.any fun p => p.1 = k) = true
  · rw [if_pos h]
    rw [any_key_iff] at h
    induction d with
    | nil => simp [dkeys_nil] at h
    | cons p t ih =>
      obtain ⟨p1, p2⟩ := p
      rw [dkeys_cons, List.mem_cons] at h
      rw [List.map_cons]
      by_cases hp : p1 = k
      · subst hp
        simp [dlookup_cons]
      · have ht : k ∈ dkeys t := by
          rcases h with h | h
          · exact absurd h.symm hp
          · exact h
        have hstep : dlookup k ((if (p1, p2).1 = k then ((k, v) : String × α) else (p1, p2))
            :: List.map (fun p => if p.1 = k then (k, v) else p) t)
            = dlookup k (List.map (fun p => if p.1 = k then (k, v) else p) t) := by
          simp [dlookup_cons, hp]
        rw [hstep]
        exact ih ht
  · rw [if_neg h]
    have hnm : k ∉ dkeys d := fun hm => h ((any_key_iff d k).2 hm)
    clear h
    induction d with
    | nil => simp [dlookup]
    | cons p t ih =>
      obtain ⟨p1, p2⟩ := p
      rw [dkeys_cons, List.mem_cons] at hnm
      push_neg at hnm
      rw [List.cons_append, dlookup_cons, if_neg (fun he => hnm.1 he.symm)]
      exact ih hnm.2

theorem dlookup_dinsert_ne (d : AList α) {k k' : String} (v : α) (h : k' ≠ k) :
    dlookup k' (dinsert d k v) = dlookup k' d := by
  unfold dinsert
  by_cases ha : (d.any fun p => p.1 = k) = true
  · rw [if_pos ha]
    clear ha
    induction d with
    | nil => rfl
    | cons p t ih =>
      obtain ⟨p1, p2⟩ := p
      rw [List.map_cons]
      by_cases hp : p1 = k
      · subst hp
        have hne : ¬ p1 = k' := fun he => h he.symm
        have hstep : dlookup k' ((if (p1, p2).1 = p1 then ((p1, v) : String × α) else (p1, p2))
            :: List.map (fun p => if p.1 = p1 then (p1, v) else p) t)
            = dlookup k' (List.map (fun p => if p.1 = p1 then (p1, v) else p) t) := by
          simp [dlookup_cons, hne]
        rw [hstep, dlookup_cons, if_neg hne]
        exact ih
      · have hstep : dlookup k' ((if (p1, p2).1 = k then ((k, v) : String × α) else (p1, p2))
            :: List.map (fun p => if p.1 = k then (k, v) else p) t)
            = if p1 = k' then some p2
              else dlookup k' (List.map (fun p => if p.1 = k then (k, v) else p) t) := by
          simp [dlookup_cons, hp]
        rw [hstep, dlookup_cons]
        by_cases hpk : p1 = k'
        · rw [if_pos hpk, if_pos hpk]
        · rw [if_neg hpk, if_neg hpk]
          exact ih
  · rw [if_neg ha]
    clear ha
    induction d with
    | nil =>
      rw [List.nil_append, dlookup_cons, if_neg (fun he => h he.symm)]
    | cons p t ih =>
      obtain ⟨p1, p2⟩ := p
      rw [List.cons_append, dlookup_cons, dlookup_cons]
      by_cases hpk : p1 = k'
      · rw [if_pos hpk, if_pos hpk]
      · rw [if_neg hpk, if_neg hpk]
        exact ih

theorem dlookup_eq_none_of_not_mem {d : AList α} {k : String} (h : k ∉ dkeys d) :
    dlookup k d = none := by
  induction d with
  | nil => rfl
  | cons p t ih =>
    obtain ⟨p1, p2⟩ := p
    rw [dkeys_cons, List.mem_cons] at h
    push_neg at h
    rw [dlookup_cons, if_neg (fun he => h.1 he.symm)]
    exact ih h.2

theorem mem_dkeys_of_dlookup {d : AList α} {k : String} {v : α}
    (h : dlookup k d = some v) : k ∈ dkeys d := by
  by_contra hm
  rw [dlookup_eq_none_of_not_mem hm] at h
  exact Option.noConfusion h


/-! ## Collector fold lemmas -/

section FoldLemmas

variable {α : Type} (keyFn : String → String) (mk : ByteSeq → α) (base : String) (fs : FS)

theorem readStep_eq (d : AList α) (job : String × String) :
    readStep keyFn mk base fs d job =
      if job.2 = "" then d
      else
        match fs (posixJoin base (joinHint job.1 job.2)) with
        | some bs => dinsert d (keyFn (joinHint job.1 job.2)) (mk bs)
        | none => d := rfl

theorem foldl_readStep_keys_mono {k : String} :
    ∀ (l : List (String × String)) (d : AList α), k ∈ dkeys d →
      k ∈ dkeys (l.foldl (readStep keyFn mk base fs) d)
  | [], d, h => h
  | job :: t, d, h => by
    rw [List.foldl_cons]
    refine foldl_readStep_keys_mono t _ ?_
    rw [readStep_eq]
    by_cases h2 : job.2 = ""
    · rw [if_pos h2]
      exact h
    · rw [if_neg h2]
      cases hfs : fs (posixJoin base (joinHint job.1 job.2)) with
      | some bs => exact mem_dkeys_dinsert h _ _
      | none => exact h

theorem foldl_readStep_mem {job : String × String} {bs : ByteSeq}
    (h2 : job.2 ≠ "") (hfs : fs (posixJoin base (joinHint job.1 job.2)) = some bs) :
    ∀ (l : List (String × String)) (d : AList α), job ∈ l →
      keyFn (joinHint job.1 job.2) ∈ dkeys (l.foldl (readStep keyFn mk base fs) d)
  | [], _, hjob => absurd hjob (List.not_mem_nil _)
  | j :: t, d, hjob => by
    rw [List.foldl_cons]
    rcases List.mem_cons.1 hjob with hj | hj
    · subst hj
      refine foldl_readStep_keys_mono keyFn mk base fs t _ ?_
      rw [readStep_eq, if_neg h2, hfs]
      exact self_mem_dkeys_dinsert d _ _
    · exact foldl_readStep_mem h2 hfs t _ hj

theorem foldl_readStep_keys_elim {k : String} :
    ∀ (l : List (String × String)) (d : AList α),
      k ∈ dkeys (l.foldl (readStep keyFn mk base fs) d) →
      k ∈ dkeys d ∨ ∃ job ∈ l, job.2 ≠ "" ∧ k = keyFn (joinHint job.1 job.2)
  | [], d, h => Or.inl h
  | j :: t, d, h => by
    rw [List.foldl_cons] at h
    rcases foldl_readStep_keys_elim t _ h with h' | ⟨job, hjob, hj2, hk⟩
    · rw [readStep_eq] at h'
      by_cases h2 : j.2 = ""
      · rw [if_pos h2] at h'
        exact Or.inl h'
      · rw [if_neg h2] at h'
        cases hfs : fs (posixJoin base (joinHint j.1 j.2)) with
        | some bs =>
          rw [hfs] at h'
          rcases mem_dkeys_dinsert_elim h' with hk | hk
          · exact Or.inr ⟨j, by simp, h2, hk⟩
          · exact Or.inl hk
        | none =>
          rw [hfs] at h'
          exact Or.inl h'
    · exact Or.inr ⟨job, by simp [hjob], hj2, hk⟩

theorem readStep_lookup_pres {job₀ : String × String} {bs : ByteSeq} {v : α}
    (hfs0 : fs (posixJoin base (joinHint job₀.1 job₀.2)) = some bs)
    (hv : v = mk bs) (d : AList α) (job : String × String)
    (hj : job.2 = "" ∨ fs (posixJoin base (joinHint job.1 job.2)) = none ∨
      keyFn (joinHint job.1 job.2) ≠ keyFn (joinHint job₀.1 job₀.2) ∨ job = job₀)
    (hd : dlookup (keyFn (joinHint job₀.1 job₀.2)) d = some v) :
    dlookup (keyFn (joinHint job₀.1 job₀.2)) (readStep keyFn mk base fs d job) = some v := by
  rw [readStep_eq]
  by_cases h2 : job.2 = ""
  · rw [if_pos h2]
    exact hd
  · rw [if_neg h2]
    cases hfs : fs (posixJoin base (joinHint job.1 job.2)) with
    | some bs' =>
      rcases hj with hj | hj | hj | hj
      · exact absurd hj h2
      · rw [hj] at hfs
        exact Option.noConfusion hfs
      · rw [dlookup_dinsert_ne _ _ (fun he => hj he.symm)]
        exact hd
      · subst hj
        rw [hfs0] at hfs
        obtain rfl : bs = bs' := Option.some.inj hfs
        rw [hv, dlookup_dinsert_self]
    | none => exact hd

theorem foldl_readStep_last {job₀ : String × String} {bs : ByteSeq} {v : α}
    (h2 : job₀.2 ≠ "")
    (hfs0 : fs (posixJoin base (joinHint job₀.1 job₀.2)) = some bs)
    (hv : v = mk bs) :
    ∀ (l : List (String × String)) (d : AList α),
      (∀ job ∈ l, job.2 = "" ∨ fs (posixJoin base (joinHint job.1 job.2)) = none ∨
        keyFn (joinHint job.1 job.2) ≠ keyFn (joinHint job₀.1 job₀.2) ∨ job = job₀) →
      (dlookup (keyFn (joinHint job₀.1 job₀.2)) d = some v ∨ job₀ ∈ l) →
      dlookup (keyFn (joinHint job₀.1 job₀.2))
        (l.foldl (readStep keyFn mk base fs) d) = some v
  | [], d, _, hstart => by
    rcases hstart with hstart | hstart
    · exact hstart
    · exact absurd hstart (List.not_mem_nil _)
  | j :: t, d, hl, hstart => by
    rw [List.foldl_cons]
    rcases hstart with hstart | hstart
    · exact foldl_readStep_last h2 hfs0 hv t _ (fun job hj => hl job (by simp [hj]))
        (Or.inl (readStep_lookup_pres keyFn mk base fs hfs0 hv d j (hl j (by simp)) hstart))
    · rcases List.mem_cons.1 hstart with hj | hj
      · subst hj
        refine foldl_readStep_last h2 hfs0 hv t _ (fun job hjm => hl job (by simp [hjm]))
          (Or.inl ?_)
        rw [readStep_eq, if_neg h2, hfs0, hv]
        exact dlookup_dinsert_self d _ _
      · exact foldl_readStep_last h2 hfs0 hv t _ (fun job hjm => hl job (by simp [hjm]))
          (Or.inr hj)

theorem foldl_readStep_skip (l1 l2 : List (String × String)) (d : AList α)
    (job : String × String)
    (hskip : job.2 = "" ∨ fs (posixJoin base (joinHint job.1 job.2)) = none) :
    (l1 ++ job :: l2).foldl (readStep keyFn mk base fs) d
      = (l1 ++ l2).foldl (readStep keyFn mk base fs) d := by
  rw [List.foldl_append, List.foldl_append, List.foldl_cons]
  congr 1
  rw [readStep_eq]
  rcases hskip with h2 | hfs
  · rw [if_pos h2]
  · by_cases h2 : job.2 = ""
    · rw [if_pos h2]
    · rw [if_neg h2, hfs]

theorem foldl_readStep_not_mem {k : String} :
    ∀ (l : List (String × String)) (d : AList α), k ∉ dkeys d →
      (∀ job ∈ l, job.2 = "" ∨ fs (posixJoin base (joinHint job.1 job.2)) = none ∨
        keyFn (joinHint job.1 job.2) ≠ k) →
      k ∉ dkeys (l.foldl (readStep keyFn mk base fs) d)
  | [], _, hk, _ => hk
  | j :: t, d, hk, hl => by
    rw [List.foldl_cons]
    refine foldl_readStep_not_mem t _ ?_ (fun job hj => hl job (by simp [hj]))
    rw [readStep_eq]
    by_cases h2 : j.2 = ""
    · rw [if_pos h2]
      exact hk
    · rw [if_neg h2]
      cases hfs : fs (posixJoin base (joinHint j.1 j.2)) with
      | some bs =>
        intro hmem
        rcases mem_dkeys_dinsert_elim hmem with he | he
        · rcases hl j (by simp) with hj | hj | hj
          · exact h2 hj
          · rw [hj] at hfs
            exact Option.noConfusion hfs
          · exact hj he.symm
        · exact hk he
      | none => exact hk

end FoldLemmas


/-! ## XML tree lemmas -/

mutual

theorem treeMap_comp (g g' : String → AList String → AList String) :
    ∀ e, treeMap g (treeMap g' e) = treeMap (fun t a => g t (g' t a)) e
  | ⟨t, a, c⟩ => by
    simp only [treeMap]
    rw [treeMapL_comp g g' c]

theorem treeMapL_comp (g g' : String → AList String → AList String) :
    ∀ l, treeMapL g (treeMapL g' l) = treeMapL (fun t a => g t (g' t a)) l
  | [] => rfl
  | x :: xs => by
    simp only [treeMapL]
    rw [treeMap_comp g g' x, treeMapL_comp g g' xs]

end

mutual

theorem descendants_treeMap (g : String → AList String → AList String) :
    ∀ e, descendants (treeMap g e) = (descendants e).map (treeMap g)
  | ⟨t, a, c⟩ => by
    simp only [treeMap, descendants, List.map_cons]
    rw [descendantsL_treeMap g c]

theorem descendantsL_treeMap (g : String → AList String → AList String) :
    ∀ l, descendantsL (treeMapL g l) = (descendantsL l).map (treeMap g)
  | [] => rfl
  | x :: xs => by
    simp only [treeMapL, descendantsL, List.map_append]
    rw [descendants_treeMap g x, descendantsL_treeMap g xs]

end

theorem tag_treeMap (g : String → AList String → AList String) (e : XElem) :
    (treeMap g e).tag = e.tag := by
  cases e
  rfl

theorem attrib_treeMap (g : String → AList String → AList String) (e : XElem) :
    (treeMap g e).attrib = g e.tag e.attrib := by
  cases e
  rfl

theorem dlookup_popA_self (k : String) (a : AList α) : dlookup k (popA k a) = none := by
  induction a with
  | nil => rfl
  | cons p t ih =>
    obtain ⟨p1, p2⟩ := p
    unfold popA
    rw [List.filter_cons]
    by_cases hp : p1 = k
    · rw [if_neg (by simp [hp])]
      exact ih
    · rw [if_pos (by simp [hp]), dlookup_cons, if_neg hp]
      exact ih

theorem dlookup_popA_ne (k : String) {k' : String} (h : k' ≠ k) (a : AList α) :
    dlookup k' (popA k a) = dlookup k' a := by
  induction a with
  | nil => rfl
  | cons p t ih =>
    obtain ⟨p1, p2⟩ := p
    unfold popA
    rw [List.filter_cons]
    by_cases hp : p1 = k
    · rw [if_neg (by simp [hp]), dlookup_cons,
        if_neg (by rw [hp]; exact fun he => h he.symm)]
      exact ih
    · rw [if_pos (by simp [hp]), dlookup_cons, dlookup_cons]
      by_cases hpk : p1 = k'
      · rw [if_pos hpk, if_pos hpk]
      · rw [if_neg hpk, if_neg hpk]
        exact ih

theorem gCompiler_eq (a : AList String) :
    gCompiler "compiler" a = popA "texturedir" (popA "meshdir" a) := by
  unfold gCompiler
  rw [if_pos rfl]

theorem gCompiler_ne {t : String} (h : t ≠ "compiler") (a : AList String) :
    gCompiler t a = a := by
  unfold gCompiler
  rw [if_neg h]

theorem gMesh_eq (m : String) (a : AList String) :
    gMesh m "mesh" a = rewriteFileAttr m "file" a := by
  unfold gMesh
  rw [if_pos rfl]

theorem gMesh_ne (m : String) {t : String} (h : t ≠ "mesh") (a : AList String) :
    gMesh m t a = a := by
  unfold gMesh
  rw [if_neg h]

theorem gTexture_ne (td : String) {t : String} (h : t ≠ "texture") (a : AList String) :
    gTexture td t a = a := by
  unfold gTexture
  rw [if_neg h]

theorem gFileTag_ne (tagName : String) {t : String} (h : t ≠ tagName) (a : AList String) :
    gFileTag tagName t a = a := by
  unfold gFileTag
  rw [if_neg h]

theorem gAll_compiler (m td : String) (a : AList String) :
    gAll m td "compiler" a = popA "texturedir" (popA "meshdir" a) := by
  unfold gAll
  rw [gCompiler_eq, gMesh_ne m (by decide), gTexture_ne td (by decide),
    gFileTag_ne "hfield" (by decide), gFileTag_ne "skin" (by decide)]

theorem gAll_mesh (m td : String) (a : AList String) :
    gAll m td "mesh" a = rewriteFileAttr m "file" a := by
  unfold gAll
  rw [gCompiler_ne (by decide), gMesh_eq, gTexture_ne td (by decide),
    gFileTag_ne "hfield" (by decide), gFileTag_ne "skin" (by decide)]

theorem rewriteFileAttr_lookup_some {a : AList String} {attr f : String}
    (dh : String) (hf : dlookup attr a = some f) (hne : f ≠ "") :
    dlookup attr (rewriteFileAttr dh attr a) = some (makeZipSafePath (joinHint dh f)) := by
  unfold rewriteFileAttr
  rw [hf]
  show dlookup attr (if f = "" then a else dinsert a attr (makeZipSafePath (joinHint dh f)))
    = some (makeZipSafePath (joinHint dh f))
  rw [if_neg hne]
  exact dlookup_dinsert_self a attr _

theorem rewriteFileAttr_of_none {a : AList String} {attr : String} (dh : String)
    (hf : dlookup attr a = none) : rewriteFileAttr dh attr a = a := by
  unfold rewriteFileAttr
  rw [hf]

theorem rewriteFileAttr_of_empty {a : AList String} {attr : String} (dh : String)
    (hf : dlookup attr a = some "") : rewriteFileAttr dh attr a = a := by
  unfold rewriteFileAttr
  rw [hf]
  show (if ("" : String) = "" then a else dinsert a attr (makeZipSafePath (joinHint dh "")))
    = a
  rw [if_pos rfl]

theorem rewriteXmlTree_eq (m td : String) (e : XElem) :
    rewriteXmlTree m td e = treeMap (gAll m td) e := by
  unfold rewriteXmlTree
  rw [treeMap_comp, treeMap_comp, treeMap_comp, treeMap_comp]
  rfl


/-! # Claim theorems -/

theorem collectAssetsWith_eq {α : Type} (keyFn : String → String) (mk : ByteSeq → α)
    (spec : MjSpecModel) (fs : FS) :
    collectAssetsWith keyFn mk spec fs
      = (specJobs spec).foldl (readStep keyFn mk spec.modelfiledir fs) [] := rfl

theorem toZipDeflated_fst (toXml : MjSpecModel → String × MjSpecModel)
    (rewrite : String → String → String → String) (spec : MjSpecModel) (fs : FS) :
    (toZipDeflated toXml rewrite spec fs).1
      = dinsert (collectAssetsWith makeZipSafePath ZVal.bytes spec fs)
          ((toXml spec).2.modelname ++ ".xml")
          (ZVal.text (rewrite (toXml spec).1 spec.meshdir spec.texturedir)) := rfl

theorem mesh_job_mem {spec : MjSpecModel} {m : MjsMesh} (hm : m ∈ spec.meshes) :
    (spec.meshdir, m.file) ∈ specJobs spec := by
  unfold specJobs
  refine List.mem_append_left _ (List.mem_append_left _ (List.mem_append_left _ ?_))
  exact List.mem_map.2 ⟨m, hm, rfl⟩

/-- C1 (amended): every entry name of an archive produced by
`to_zip_deflated` contains no `..` path segment and does not begin with
`/`, provided (a) the description entry name `modelname + ".xml"` itself
satisfies the invariant (the code writes it unsanitized), and (b) no
collected reference resolves, after backslash normalization, to an
absolute path whose basename is the literal segment `..`. -/
theorem toZipDeflated_entry_names_safe (toXml : MjSpecModel → String × MjSpecModel)
    (rewrite : String → String → String → String) (spec : MjSpecModel) (fs : FS)
    (hname : safeEntryName ((toXml spec).2.modelname ++ ".xml"))
    (hjobs : ∀ job ∈ specJobs spec,
      posixBasename (backslashToSlash (joinHint job.1 job.2)) ≠ ".." ∨
      (startsWithSlash (backslashToSlash (joinHint job.1 job.2))
        || driveLike (backslashToSlash (joinHint job.1 job.2))) = false) :
    ∀ name ∈ dkeys (toZipDeflated toXml rewrite spec fs).1, safeEntryName name := by
  intro name hmem
  rw [toZipDeflated_fst] at hmem
  rcases mem_dkeys_dinsert_elim hmem with he | he
  · rw [he]
    exact hname
  · rw [collectAssetsWith_eq] at he
    rcases foldl_readStep_keys_elim makeZipSafePath ZVal.bytes spec.modelfiledir fs
        (specJobs spec) [] he with he' | ⟨job, hjob, _, hk⟩
    · simp [dkeys_nil] at he'
    · rw [hk]
      exact makeZipSafePath_safe _ (hjobs job hjob)

/-- C1 counterexample: on a description whose model name is `../evil` (and
no assets at all), the only entry of the produced archive is named
`../evil.xml`, which contains a `..` path segment. -/
theorem toZipDeflated_entry_name_unsafe_cex :
    "../evil.xml" ∈ dkeys (toZipDeflated xmlStub rewriteStub specDotdotName fsNone).1
    ∧ ¬ safeEntryName "../evil.xml" := by decide

/-- C1 witness: the amended theorem applied to a concrete archive and its
two concrete entry names. -/
theorem toZipDeflated_entry_names_safe_witness :
    safeEntryName "foo.stl" ∧ safeEntryName "m.xml" :=
  ⟨toZipDeflated_entry_names_safe xmlStub rewriteStub specHintMesh fsDotdotFoo
      (by decide) (by decide) "foo.stl" (by decide),
    toZipDeflated_entry_names_safe xmlStub rewriteStub specHintMesh fsDotdotFoo
      (by decide) (by decide) "m.xml" (by decide)⟩

/-- C2 (amended): for a mesh with non-empty file whose resolved path is a
regular file, `muwanx.utils.collect_spec_assets` maps the key
`canonicalize(join(meshdir, file))`; the bound value is exactly the bytes of
that file whenever every other processed asset either skips, fails to
resolve, or canonicalizes to a different key (last write wins otherwise).
The `muwanx.asset_collector` copy stores the raw joined path instead (see
the counterexample). -/
theorem collect_mesh_key_mem_and_value (spec : MjSpecModel) (fs : FS) (m : MjsMesh)
    (bs : ByteSeq) (hm : m ∈ spec.meshes) (hf : m.file ≠ "")
    (hfs : fs (posixJoin spec.modelfiledir (joinHint spec.meshdir m.file)) = some bs) :
    makeZipSafePath (joinHint spec.meshdir m.file) ∈ dkeys (collectSpecAssetsUtils spec fs)
    ∧ ((∀ job ∈ specJobs spec, job.2 = "" ∨
          fs (posixJoin spec.modelfiledir (joinHint job.1 job.2)) = none ∨
          makeZipSafePath (joinHint job.1 job.2)
            ≠ makeZipSafePath (joinHint spec.meshdir m.file) ∨
          job = (spec.meshdir, m.file)) →
        dlookup (makeZipSafePath (joinHint spec.meshdir m.file))
          (collectSpecAssetsUtils spec fs) = some bs) := by
  constructor
  · exact @foldl_readStep_mem ByteSeq makeZipSafePath id spec.modelfiledir fs
      (spec.meshdir, m.file) bs hf hfs (specJobs spec) [] (mesh_job_mem hm)
  · intro hunique
    exact @foldl_readStep_last ByteSeq makeZipSafePath id spec.modelfiledir fs
      (spec.meshdir, m.file) bs bs hf hfs rfl (specJobs spec) [] hunique
      (Or.inr (mesh_job_mem hm))

/-- C2 counterexample: `muwanx.asset_collector.collect_spec_assets` on a
description with mesh directory `..` and mesh file `foo.stl`, whose
resolved path `../foo.stl` is a regular file, does not contain the
canonical key `canonicalize("../foo.stl") = "foo.stl"` (it stores the raw
`../foo.stl` instead). -/
theorem assetCollector_raw_key_cex :
    fsDotdotFoo (posixJoin specHintMesh.modelfiledir
        (joinHint specHintMesh.meshdir "foo.stl")) = some [7]
    ∧ makeZipSafePath (joinHint specHintMesh.meshdir "foo.stl")
        ∉ dkeys (collectSpecAssetsAC specHintMesh fsDotdotFoo) := by decide

/-- C2 witness: the amended theorem applied to a concrete collection. -/
theorem collect_mesh_key_mem_and_value_witness :
    makeZipSafePath (joinHint specHintMesh.meshdir "foo.stl")
        ∈ dkeys (collectSpecAssetsUtils specHintMesh fsDotdotFoo)
    ∧ dlookup (makeZipSafePath (joinHint specHintMesh.meshdir "foo.stl"))
        (collectSpecAssetsUtils specHintMesh fsDotdotFoo) = some [7] := by
  have h := collect_mesh_key_mem_and_value specHintMesh fsDotdotFoo ⟨"foo.stl"⟩ [7]
    (by decide) (by decide) (by decide)
  exact ⟨h.1, h.2 (by decide)⟩

/-- C3: the unit equations of the path canonicalizer. -/
theorem makeZipSafePath_unit_equations :
    makeZipSafePath "" = "" ∧ makeZipSafePath "../.." = ""
    ∧ makeZipSafePath "./meshes/foo.stl" = "meshes/foo.stl"
    ∧ makeZipSafePath "a/b/../../c.stl" = "c.stl"
    ∧ makeZipSafePath "/Users/alice/models/scene/skybox.png" = "skybox.png"
    ∧ makeZipSafePath "C:/Users/bob/models/mesh.stl" = "mesh.stl" := by decide

/-- C4: the Reference Rewriter removes `meshdir`/`texturedir` from every
`compiler` element of the output; every element of the output is the
node-local rewrite of the corresponding input element with its tag
preserved; a `mesh` element with a non-empty `file` gets
`canonicalize(join(meshDirHint, file))`, and a `mesh` element with an
absent or empty `file` keeps its attributes untouched. -/
theorem rewriteXmlTree_spec (meshDir texDir : String) (e : XElem) :
    (∀ d ∈ descendants (rewriteXmlTree meshDir texDir e), d.tag = "compiler" →
        dlookup "meshdir" d.attrib = none ∧ dlookup "texturedir" d.attrib = none)
    ∧ descendants (rewriteXmlTree meshDir texDir e)
        = (descendants e).map (treeMap (gAll meshDir texDir))
    ∧ (∀ d : XElem, (treeMap (gAll meshDir texDir) d).tag = d.tag)
    ∧ (∀ (d : XElem) (f : String), d.tag = "mesh" → dlookup "file" d.attrib = some f →
        f ≠ "" → dlookup "file" (treeMap (gAll meshDir texDir) d).attrib
          = some (makeZipSafePath (joinHint meshDir f)))
    ∧ (∀ d : XElem, d.tag = "mesh" →
        (dlookup "file" d.attrib = none ∨ dlookup "file" d.attrib = some "") →
        (treeMap (gAll meshDir texDir) d).attrib = d.attrib) := by
  have hmap : descendants (rewriteXmlTree meshDir texDir e)
      = (descendants e).map (treeMap (gAll meshDir texDir)) := by
    rw [rewriteXmlTree_eq]
    exact descendants_treeMap _ e
  refine ⟨?_, hmap, fun d => tag_treeMap _ d, ?_, ?_⟩
  · intro d hd htag
    rw [hmap] at hd
    obtain ⟨d₀, _, rfl⟩ := List.mem_map.1 hd
    have ht : d₀.tag = "compiler" := (tag_treeMap _ d₀) ▸ htag
    rw [attrib_treeMap, ht, gAll_compiler]
    constructor
    · rw [dlookup_popA_ne _ (by decide), dlookup_popA_self]
    · rw [dlookup_popA_self]
  · intro d f htag hf hne
    rw [attrib_treeMap, htag, gAll_mesh]
    exact rewriteFileAttr_lookup_some meshDir hf hne
  · intro d htag hf
    rw [attrib_treeMap, htag, gAll_mesh]
    rcases hf with hf | hf
    · exact rewriteFileAttr_of_none meshDir hf
    · exact rewriteFileAttr_of_empty meshDir hf

/-- C4 witness: the rewriting theorem applied to a concrete mesh element. -/
theorem rewriteXmlTree_spec_witness :
    dlookup "file" (treeMap (gAll ".." "")
        (XElem.mk "mesh" [("name", "m1"), ("file", "foo.stl")] [])).attrib
      = some (makeZipSafePath (joinHint ".." "foo.stl")) :=
  (rewriteXmlTree_spec ".." "" (XElem.mk "mesh" [("name", "m1"), ("file", "foo.stl")] [])).2.2.2.1
    (XElem.mk "mesh" [("name", "m1"), ("file", "foo.stl")] []) "foo.stl" rfl (by decide)
    (by decide)


/-- C5 (amended): the archive byte stream is a deterministic function of
the description, the filesystem and the clock reading: two invocations
that observe the same wall-clock time produce byte-identical output, for
any compressor, CRC, text encoding and central-directory serialization.
Invocations at different clock times differ in the ZIP header time fields
(see the counterexample). -/
theorem zipStream_deterministic_same_clock (compress : ByteSeq → ByteSeq)
    (crcF : ByteSeq → Nat) (enc : String → ByteSeq)
    (central : AList ZVal → Clock → ByteSeq)
    (toXml : MjSpecModel → String × MjSpecModel)
    (rewrite : String → String → String → String)
    (spec : MjSpecModel) (fs : FS) (c c' : Clock) (h : c = c') :
    zipStream compress crcF enc central (toZipDeflated toXml rewrite spec fs).1 c
      = zipStream compress crcF enc central (toZipDeflated toXml rewrite spec fs).1 c' := by
  rw [h]

/-- C5 counterexample: the same description and filesystem, serialized at
clock readings two seconds apart, give different archive bytes (the DOS
time word in each local file header changes). -/
theorem zipStream_clock_dependent_cex :
    zipStream compressId crcZero encChars centralNil
        (toZipDeflated xmlStub rewriteStub specLoneMesh fsNone).1 clockA
      ≠ zipStream compressId crcZero encChars centralNil
        (toZipDeflated xmlStub rewriteStub specLoneMesh fsNone).1 clockB := by decide

/-- C5 witness: the determinism theorem applied at a concrete input. -/
theorem zipStream_deterministic_same_clock_witness :
    zipStream compressId crcZero encChars centralNil
        (toZipDeflated xmlStub rewriteStub specLoneMesh fsNone).1 clockA
      = zipStream compressId crcZero encChars centralNil
        (toZipDeflated xmlStub rewriteStub specLoneMesh fsNone).1 clockA :=
  zipStream_deterministic_same_clock compressId crcZero encChars centralNil
    xmlStub rewriteStub specLoneMesh fsNone clockA clockA rfl

/-- C6: `to_zip_deflated` does not mutate the input description: with the
internal `to_xml` normalization of the library snapshotted (the external call
returns the spec unchanged, as after a prior normalizing call), the spec
after the call has the same `meshdir`, `texturedir` and mesh file
references — indeed the same value — as before. -/
theorem toZipDeflated_preserves_spec (toXml : MjSpecModel → String × MjSpecModel)
    (rewrite : String → String → String → String) (spec : MjSpecModel) (fs : FS)
    (hnorm : (toXml spec).2 = spec) :
    (toZipDeflated toXml rewrite spec fs).2.meshdir = spec.meshdir
    ∧ (toZipDeflated toXml rewrite spec fs).2.texturedir = spec.texturedir
    ∧ (toZipDeflated toXml rewrite spec fs).2.meshes.map MjsMesh.file
        = spec.meshes.map MjsMesh.file
    ∧ (toZipDeflated toXml rewrite spec fs).2 = spec := by
  have h : (toZipDeflated toXml rewrite spec fs).2 = (toXml spec).2 := rfl
  rw [h, hnorm]
  exact ⟨rfl, rfl, rfl, rfl⟩

/-- C6 witness: the non-mutation theorem applied at a concrete input. -/
theorem toZipDeflated_preserves_spec_witness :
    (toZipDeflated xmlStub rewriteStub specLoneMesh fsAOnly).2.meshdir
        = specLoneMesh.meshdir
    ∧ (toZipDeflated xmlStub rewriteStub specLoneMesh fsAOnly).2.texturedir
        = specLoneMesh.texturedir
    ∧ (toZipDeflated xmlStub rewriteStub specLoneMesh fsAOnly).2.meshes.map MjsMesh.file
        = specLoneMesh.meshes.map MjsMesh.file
    ∧ (toZipDeflated xmlStub rewriteStub specLoneMesh fsAOnly).2 = specLoneMesh :=
  toZipDeflated_preserves_spec xmlStub rewriteStub specLoneMesh fsAOnly rfl

/-- C7 (amended): an asset declaration whose resolved path is not a
regular file is skipped without error — collecting a description extended
with such a mesh gives exactly the collection without it — and a key is
absent from the mapping whenever no declared asset resolving to a regular
file canonicalizes to it (and absent from the archive if it is moreover
not the description entry name).  If a different declaration with the
same canonical key does resolve, the key is present (see the
counterexample). -/
theorem collect_missing_file_skipped :
    (∀ (spec : MjSpecModel) (fs : FS) (m : MjsMesh),
        (m.file = "" ∨ fs (posixJoin spec.modelfiledir (joinHint spec.meshdir m.file)) = none) →
        collectSpecAssetsUtils { spec with meshes := spec.meshes ++ [m] } fs
          = collectSpecAssetsUtils spec fs)
    ∧ (∀ (spec : MjSpecModel) (fs : FS) (k : String),
        (∀ job ∈ specJobs spec, job.2 = "" ∨
          fs (posixJoin spec.modelfiledir (joinHint job.1 job.2)) = none ∨
          makeZipSafePath (joinHint job.1 job.2) ≠ k) →
        k ∉ dkeys (collectSpecAssetsUtils spec fs)
        ∧ ∀ (toXml : MjSpecModel → String × MjSpecModel)
            (rewrite : String → String → String → String),
            k ≠ (toXml spec).2.modelname ++ ".xml" →
            k ∉ dkeys (toZipDeflated toXml rewrite spec fs).1) := by
  constructor
  · intro spec fs m hskip
    show ((specJobs { spec with meshes := spec.meshes ++ [m] }).foldl
        (readStep makeZipSafePath id spec.modelfiledir fs) [])
      = ((specJobs spec).foldl (readStep makeZipSafePath id spec.modelfiledir fs) [])
    have hjobs : specJobs { spec with meshes := spec.meshes ++ [m] }
        = spec.meshes.map (fun mm => (spec.meshdir, mm.file))
          ++ ((spec.meshdir, m.file)
            :: ((spec.textures.map fun t => (spec.texturedir, t.file)
                  :: t.cubefiles.map fun cf => (spec.texturedir, cf)).flatten
              ++ (spec.hfields.map (fun h => ("", h.file))
                ++ spec.skins.map (fun sk => ("", sk.file))))) := by
      unfold specJobs
      simp [List.map_append, List.append_assoc]
    have hjobs2 : specJobs spec
        = spec.meshes.map (fun mm => (spec.meshdir, mm.file))
          ++ (((spec.textures.map fun t => (spec.texturedir, t.file)
                  :: t.cubefiles.map fun cf => (spec.texturedir, cf)).flatten
              ++ (spec.hfields.map (fun h => ("", h.file))
                ++ spec.skins.map (fun sk => ("", sk.file))))) := by
      unfold specJobs
      simp [List.append_assoc]
    rw [hjobs, hjobs2]
    exact foldl_readStep_skip makeZipSafePath id spec.modelfiledir fs _ _ []
      (spec.meshdir, m.file) hskip
  · intro spec fs k hk
    have hcoll : k ∉ dkeys (collectSpecAssetsUtils spec fs) := by
      refine foldl_readStep_not_mem makeZipSafePath id spec.modelfiledir fs
        (specJobs spec) [] (by simp [dkeys_nil]) ?_
      intro job hj
      rcases hk job hj with h | h | h
      · exact Or.inl h
      · exact Or.inr (Or.inl h)
      · exact Or.inr (Or.inr h)
    have hcollZ : k ∉ dkeys (collectAssetsWith makeZipSafePath ZVal.bytes spec fs) := by
      refine foldl_readStep_not_mem makeZipSafePath ZVal.bytes spec.modelfiledir fs
        (specJobs spec) [] (by simp [dkeys_nil]) ?_
      intro job hj
      rcases hk job hj with h | h | h
      · exact Or.inl h
      · exact Or.inr (Or.inl h)
      · exact Or.inr (Or.inr h)
    refine ⟨hcoll, ?_⟩
    intro toXml rewrite hne hmem
    rw [toZipDeflated_fst] at hmem
    rcases mem_dkeys_dinsert_elim hmem with he | he
    · exact hne he
    · exact hcollZ he

/-- C7 counterexample: a mesh declaration `x/../a.stl` whose resolved path
is not a regular file, in a description that also declares `a.stl` (which
does resolve): the canonical key `a.stl` of the missing declaration is present
in the mapping, contrary to the claim that it is simply absent. -/
theorem collect_missing_key_collision_cex :
    fsAOnly (posixJoin specCollide.modelfiledir
        (joinHint specCollide.meshdir "x/../a.stl")) = none
    ∧ makeZipSafePath (joinHint specCollide.meshdir "x/../a.stl")
        ∈ dkeys (collectSpecAssetsUtils specCollide fsAOnly) := by decide

/-- C7 witness: both parts of the theorem applied at concrete inputs. -/
theorem collect_missing_file_skipped_witness :
    collectSpecAssetsUtils
        { specLoneMesh with meshes := specLoneMesh.meshes ++ [⟨"missing.stl"⟩] } fsAOnly
      = collectSpecAssetsUtils specLoneMesh fsAOnly
    ∧ "zzz.stl" ∉ dkeys (collectSpecAssetsUtils specLoneMesh fsAOnly) :=
  ⟨collect_missing_file_skipped.1 specLoneMesh fsAOnly ⟨"missing.stl"⟩ (Or.inr (by decide)),
    (collect_missing_file_skipped.2 specLoneMesh fsAOnly "zzz.stl" (by decide)).1⟩

/-- C8 counterexample: the canonicalizer is not idempotent:
`canonicalize("/..") = ".."` but `canonicalize("..") = ""`. -/
theorem makeZipSafePath_not_idem_cex :
    makeZipSafePath (makeZipSafePath "/..") ≠ makeZipSafePath "/.." := by decide

/-- C8 witness: idempotence at a concrete non-exceptional input. -/
theorem makeZipSafePath_idem_witness :
    makeZipSafePath (makeZipSafePath "../meshes/foo.stl")
      = makeZipSafePath "../meshes/foo.stl" :=
  makeZipSafePath_idem "../meshes/foo.stl" (by decide) (by decide) (by decide)

/-- C9 (amended): if the file reference of some mesh is non-empty, resolves to
a regular file, and its canonical key differs from the description entry
name, then the archive contains an entry other than the description
entry.  A populated reference whose file is missing contributes nothing
(see the counterexample). -/
theorem toZipDeflated_contains_asset_entry (toXml : MjSpecModel → String × MjSpecModel)
    (rewrite : String → String → String → String) (spec : MjSpecModel) (fs : FS)
    (m : MjsMesh) (bs : ByteSeq) (hm : m ∈ spec.meshes) (hf : m.file ≠ "")
    (hfs : fs (posixJoin spec.modelfiledir (joinHint spec.meshdir m.file)) = some bs)
    (hne : makeZipSafePath (joinHint spec.meshdir m.file)
      ≠ (toXml spec).2.modelname ++ ".xml") :
    ∃ name ∈ dkeys (toZipDeflated toXml rewrite spec fs).1,
      name ≠ (toXml spec).2.modelname ++ ".xml" := by
  refine ⟨makeZipSafePath (joinHint spec.meshdir m.file), ?_, hne⟩
  rw [toZipDeflated_fst]
  refine mem_dkeys_dinsert ?_ _ _
  exact @foldl_readStep_mem ZVal makeZipSafePath ZVal.bytes spec.modelfiledir fs
    (spec.meshdir, m.file) bs hf hfs (specJobs spec) [] (mesh_job_mem hm)

/-- C9 counterexample: a description with one populated mesh reference
that does not resolve to a file yields an archive whose only entry is the
description entry. -/
theorem toZipDeflated_no_asset_cex :
    (∃ m ∈ specLoneMesh.meshes, m.file ≠ "")
    ∧ ∀ name ∈ dkeys (toZipDeflated xmlStub rewriteStub specLoneMesh fsNone).1,
        name = (xmlStub specLoneMesh).2.modelname ++ ".xml" := by decide

/-- C9 witness: the amended theorem applied at a concrete archive. -/
theorem toZipDeflated_contains_asset_entry_witness :
    ∃ name ∈ dkeys (toZipDeflated xmlStub rewriteStub specLoneMesh fsAOnly).1,
      name ≠ (xmlStub specLoneMesh).2.modelname ++ ".xml" :=
  toZipDeflated_contains_asset_entry xmlStub rewriteStub specLoneMesh fsAOnly
    ⟨"a.stl"⟩ [1] (by decide) (by decide) (by decide) (by decide)

/-- C10 (amended): the two collectors agree whenever every joined
reference is already canonical (`canonicalize(rel) = rel`); in general
`muwanx.utils` canonicalizes its keys while `muwanx.asset_collector`
keeps the raw joined path, so the mappings differ (see the
counterexample). -/
theorem collectors_agree_on_canonical_refs (spec : MjSpecModel) (fs : FS)
    (h : ∀ job ∈ specJobs spec, makeZipSafePath (joinHint job.1 job.2) = joinHint job.1 job.2) :
    collectSpecAssetsUtils spec fs = collectSpecAssetsAC spec fs := by
  show ((specJobs spec).foldl (readStep makeZipSafePath id spec.modelfiledir fs) [])
    = ((specJobs spec).foldl (readStep (fun rel => rel) id spec.modelfiledir fs) [])
  suffices haux : ∀ (l : List (String × String)) (d : AList ByteSeq),
      (∀ job ∈ l, makeZipSafePath (joinHint job.1 job.2) = joinHint job.1 job.2) →
      l.foldl (readStep makeZipSafePath id spec.modelfiledir fs) d
        = l.foldl (readStep (fun rel => rel) id spec.modelfiledir fs) d by
    exact haux (specJobs spec) [] h
  intro l
  induction l with
  | nil => intro d _; rfl
  | cons j t ih =>
    intro d hl
    rw [List.foldl_cons, List.foldl_cons]
    have hstep : readStep makeZipSafePath id spec.modelfiledir fs d j
        = readStep (fun rel => rel) id spec.modelfiledir fs d j := by
      rw [readStep_eq, readStep_eq]
      by_cases h2 : j.2 = ""
      · rw [if_pos h2, if_pos h2]
      · rw [if_neg h2, if_neg h2]
        cases hfs : fs (posixJoin spec.modelfiledir (joinHint j.1 j.2)) with
        | some bs =>
          show dinsert d (makeZipSafePath (joinHint j.1 j.2)) (id bs)
            = dinsert d (joinHint j.1 j.2) (id bs)
          rw [hl j (by simp)]
        | none => rfl
    rw [hstep]
    exact ih _ (fun job hj => hl job (by simp [hj]))

/-- C10 counterexample: with mesh directory `..` and mesh file `foo.stl`
resolving to a regular file, the `utils` collector stores the key
`foo.stl` while the `asset_collector` copy stores `../foo.stl`: the
returned mappings are different. -/
theorem collectors_differ_cex :
    collectSpecAssetsUtils specHintMesh fsDotdotFoo
      ≠ collectSpecAssetsAC specHintMesh fsDotdotFoo := by decide

/-- C10 witness: agreement of the two collectors on a concrete
already-canonical description. -/
theorem collectors_agree_on_canonical_refs_witness :
    collectSpecAssetsUtils specLoneMesh fsAOnly = collectSpecAssetsAC specLoneMesh fsAOnly :=
  collectors_agree_on_canonical_refs specLoneMesh fsAOnly (by decide)

end Muwanx

